import Mathlib

/-!
# Verification of the geometer quadric/conic engine

Shallow embedding of `geometer/curve.py` (classes `AlgebraicCurve`, `Quadric`,
`Conic`, `Ellipse`, `Circle`) and the parts of `geometer/utils/math.py` it
uses (`hat_matrix`).  Machine floats are idealised as exact real/complex
numbers; `numpy.isclose`-style tolerance tests become exact comparisons or
carry the tolerance as an explicit parameter.  The point/line primitives
(`geometer/point.py`) and the tensor engine (`geometer/base.py`) are external
collaborators of the specified component; where a definition models one of
them it is marked `Modelled from the spec:` in its doc comment.
-/

open scoped Classical

noncomputable section

namespace Geometer

/-- Homogeneous coordinate vectors of the projective plane (numpy arrays of
length 3, complex dtype in the most general case). -/
abbrev V3 := Fin 3 → ℂ

/-- 3x3 complex matrices, the `array` of a 2D `Quadric`/`Conic`. -/
abbrev M3 := Matrix (Fin 3) (Fin 3) ℂ

/-- `numpy.dot` of two length-3 vectors. -/
def dot3 (u v : V3) : ℂ := u 0 * v 0 + u 1 * v 1 + u 2 * v 2

/-- `numpy.cross` of two length-3 vectors.  Modelled from the spec: the same
formula also realises the external `join` of two points (the line through
them) and the `meet` of two lines (their intersection point) in homogeneous
coordinates. -/
def cross3 (u v : V3) : V3 :=
  ![u 1 * v 2 - u 2 * v 1, u 2 * v 0 - u 0 * v 2, u 0 * v 1 - u 1 * v 0]

/-- `numpy.linalg.det` of the 3x3 matrix whose rows are `u`, `v`, `w`,
written through the scalar triple product expansion. -/
def det3 (u v w : V3) : ℂ := dot3 u (cross3 v w)

/-- `numpy.lib.scimath.sqrt` (complex-safe square root), principal branch:
nonnegative real part, and for negative real input the positive imaginary
square root. -/
def csqrt (z : ℂ) : ℂ :=
  if z.im = 0 then
    if 0 ≤ z.re then ((Real.sqrt z.re : ℝ) : ℂ)
    else Complex.I * ((Real.sqrt (-z.re) : ℝ) : ℂ)
  else
    Complex.mk (Real.sqrt ((Complex.abs z + z.re) / 2))
      ((if z.im < 0 then (-1 : ℝ) else 1) * Real.sqrt ((Complex.abs z - z.re) / 2))

/-- `numpy.abs` of a complex entry (the modulus). -/
def npAbs (z : ℂ) : ℝ := Complex.abs z

/-- `hat_matrix(a, b, c)` from `geometer/utils/math.py` (`n = 3` branch):
the skew-symmetric matrix `[[0, c, -b], [-c, 0, a], [b, -a, 0]]`. -/
def hat3 (x : Fin 3 → ℂ) : M3 :=
  !![0, x 2, -(x 1); -(x 2), 0, x 0; x 1, -(x 0), 0]

/-- The three principal 2x2 minors of a 3x3 matrix, indexed by the deleted
row/column, in the order produced by `combinations(range(3), 1)` in
`Quadric.components`. -/
def minor3 (M : M3) : Fin 3 → ℂ :=
  ![M 1 1 * M 2 2 - M 1 2 * M 2 1,
    M 0 0 * M 2 2 - M 0 2 * M 2 0,
    M 0 0 * M 1 1 - M 0 1 * M 1 0]

/-- The vector `x` of `Quadric.components`: complex-safe square roots of the
negated principal 2x2 minors. -/
def componentsX (M : M3) : Fin 3 → ℂ := fun k => csqrt (-(minor3 M k))

/-- The rank-1 candidate `t = self.array + hat_matrix(x)` of
`Quadric.components`. -/
def componentsT (M : M3) : M3 := M + hat3 (componentsX M)

/-- Row-major enumeration of the index pairs of a 3x3 matrix, the flattening
order used by `numpy.argmax`/`numpy.unravel_index`. -/
def idxList : List (Fin 3 × Fin 3) :=
  [(0, 0), (0, 1), (0, 2), (1, 0), (1, 1), (1, 2), (2, 0), (2, 1), (2, 2)]

/-- `np.unravel_index(np.abs(t).argmax(), t.shape)`: position of the entry of
maximal modulus, first occurrence in row-major order (a strict comparison in
the fold keeps the earliest maximum, as `numpy.argmax` does). -/
def argmaxAbs (t : M3) : Fin 3 × Fin 3 :=
  idxList.foldl
    (fun best k => if npAbs (t best.1 best.2) < npAbs (t k.1 k.2) then k else best)
    (0, 0)

/-- `Quadric.components` (n = 3): the two representative vectors, namely row
`i` and column `j` of `t` at the maximal position `(i, j)`.  Depending on
`is_dual` / dimension the source wraps them as `Point`s, `Line`s or `Plane`s;
the underlying coordinate vectors are the same in every branch. -/
def componentsPair (M : M3) : V3 × V3 :=
  let t := componentsT M
  let ij := argmaxAbs t
  (fun j => t ij.1 j, fun i => t i ij.2)

/-- `Quadric.is_degenerate`: `np.isclose(det, 0)`, idealised to an exact
determinant test. -/
def isDegenerate (M : M3) : Prop := M.det = 0

/-- The symmetrized outer product `u⊗v + v⊗u` of two component vectors. -/
def symPair (u v : V3) : M3 := Matrix.vecMulVec u v + Matrix.vecMulVec v u

/-- A matrix is a (nonzero) scalar multiple of another. -/
def IsScalarMultiple (A B : M3) : Prop := ∃ k : ℂ, k ≠ 0 ∧ A = k • B

/-- The reconstruction property claimed for `Quadric.components`: the
symmetrized outer product of the two returned vectors is proportional to the
quadric matrix. -/
def Reconstructs (M : M3) : Prop :=
  IsScalarMultiple (symPair (componentsPair M).1 (componentsPair M).2) M

/-- `Quadric.from_planes(e, f)`: the degenerate quadric `m + m.T` with
`m = np.outer(e.array, f.array)`, in any dimension. -/
def fromPlanes {n : ℕ} (e f : Fin n → ℂ) : Matrix (Fin n) (Fin n) ℂ :=
  Matrix.vecMulVec e f + (Matrix.vecMulVec e f).transpose

/-- `Conic.from_lines(g, h)`: the degenerate conic `m + m.T` with
`m = np.outer(g.array, h.array)`. -/
def fromLines (g h : V3) : M3 :=
  Matrix.vecMulVec g h + (Matrix.vecMulVec g h).transpose

/-- `Point.normalized_array`.  Modelled from the spec: homogeneous
coordinates are normalised by dividing by the last coordinate when it is
nonzero, and left unchanged when the point is at infinity. -/
def normalizedC (v : V3) : V3 := if v 2 = 0 then v else (v 2)⁻¹ • v

/-- All entries of a matrix have zero imaginary part (`np.all(np.isreal(A))`). -/
def allRealM (A : M3) : Prop := ∀ i j, (A i j).im = 0

/-- `np.real_if_close`: drop the imaginary parts when they all vanish
(tolerance idealised to zero), otherwise keep the complex matrix. -/
def realIfClose (A : M3) : M3 :=
  if allRealM A then A.map (fun z => ((z.re : ℝ) : ℂ)) else A

/-- The symmetrized matrix `m + m.T` of `Conic.from_points` with
`m = ace*bde*outer(a×d, b×c) - ade*bce*outer(a×c, b×d)` built from the
normalized point vectors. -/
def fpRaw (a b c d e : V3) : M3 :=
  let pa := normalizedC a
  let pb := normalizedC b
  let pc := normalizedC c
  let pd := normalizedC d
  let pe := normalizedC e
  let ace := det3 pa pc pe
  let bde := det3 pb pd pe
  let ade := det3 pa pd pe
  let bce := det3 pb pc pe
  let m := (ace * bde) • Matrix.vecMulVec (cross3 pa pd) (cross3 pb pc) -
    (ade * bce) • Matrix.vecMulVec (cross3 pa pc) (cross3 pb pd)
  m + m.transpose

/-- `Conic.from_points(a, b, c, d, e)`: the symmetrized closed-form matrix,
then `np.real_if_close`. -/
def fromPoints (a b c d e : V3) : M3 := realIfClose (fpRaw a b c d e)

/-- `Conic.from_crossratio(cr, a, b, c, d)`: the quadratic form
`det(p,a,c)det(p,b,d) - cr*det(p,a,d)det(p,b,c)` in the unknown point `p`
expands (via `det(p,u,v) = p · (u × v)`) to `pᵀ N p` with
`N = outer(a×c, b×d) - cr * outer(a×d, b×c)`; the source fills the upper
triangle of `matrix` with the monomial coefficients of this symbolic
polynomial — `N i i` on the diagonal, `N i j + N j i` above it — and
returns `matrix + matrix.T`. -/
def fromCrossratio (cr : ℂ) (a b c d : V3) : M3 :=
  let N := Matrix.vecMulVec (cross3 a c) (cross3 b d) -
    cr • Matrix.vecMulVec (cross3 a d) (cross3 b c)
  let U : M3 := Matrix.of fun i j =>
    if i < j then N i j + N j i else if i = j then N i j else 0
  U + U.transpose

/-- `Quadric.__init__`: the stored symmetric matrix together with the
`is_dual` flag.  The constructor stores the matrix exactly as given (no
symmetry validation), in any dimension. -/
structure QuadricD (n : ℕ) where
  matrix : Matrix (Fin n) (Fin n) ℂ
  is_dual : Bool

/-- `Quadric.dual`: a new quadric with the inverse matrix and flipped
duality flag. -/
def QuadricD.dual {n : ℕ} (q : QuadricD n) : QuadricD n :=
  ⟨q.matrix⁻¹, !q.is_dual⟩

section Claim1

/-- The degenerate conic consisting of the line `x + y = 0` (coefficients
`(1, 1, 0)`) and the line at infinity (`(0, 0, 1)`): the failing input of
claim C1.  The two lines meet at the point `(1, -1, 0)`. -/
def M0 : M3 := !![0, 0, 1; 0, 0, 1; 1, 1, 0]

lemma csqrt_one : csqrt 1 = 1 := by
  simp [csqrt]

lemma csqrt_zero : csqrt 0 = 0 := by
  simp [csqrt]

lemma fromLines_M0 : fromLines ![1, 1, 0] ![0, 0, 1] = M0 := by
  ext i j
  fin_cases i <;> fin_cases j <;>
    norm_num [fromLines, M0, Matrix.vecMulVec_apply, Matrix.transpose_apply,
      Matrix.vecHead, Matrix.vecTail]

lemma componentsX_M0 : componentsX M0 = ![1, 1, 0] := by
  funext k
  fin_cases k <;>
    simp [componentsX, minor3, M0] <;>
    norm_num [csqrt_one, csqrt_zero]

lemma componentsT_M0 : componentsT M0 = !![0, 0, 0; 0, 0, 2; 2, 0, 0] := by
  rw [componentsT, componentsX_M0]
  ext i j
  fin_cases i <;> fin_cases j <;>
    norm_num [hat3, M0, Matrix.vecHead, Matrix.vecTail]

lemma argmax_M0 : argmaxAbs (componentsT M0) = (1, 2) := by
  rw [componentsT_M0]
  rw [argmaxAbs, idxList]
  norm_num [npAbs, List.foldl_cons, List.foldl_nil, Matrix.vecHead, Matrix.vecTail]

lemma pair_M0 : componentsPair M0 = (![0, 0, 2], ![0, 2, 0]) := by
  rw [componentsPair, argmax_M0, componentsT_M0]
  rw [Prod.mk.injEq]
  constructor <;> funext i <;> fin_cases i <;>
    norm_num [Matrix.vecHead, Matrix.vecTail]

lemma symPair_M0 : symPair ![0, 0, 2] ![0, 2, 0] = !![0, 0, 0; 0, 0, 4; 0, 4, 0] := by
  ext i j
  fin_cases i <;> fin_cases j <;>
    norm_num [symPair, Matrix.vecMulVec_apply, Matrix.vecHead, Matrix.vecTail]

/-- C1: refuted at the degenerate conic `M0 = from_lines((1,1,0), (0,0,1))`.
`M0` is degenerate, yet `components` returns the vectors `(0,0,2)` and
`(0,2,0)` (the independent square roots in the algorithm lose the relative
signs of the intersection point `(1,-1,0)` of the two lines), and their
symmetrized outer product `[[0,0,0],[0,0,4],[0,4,0]]` is not a scalar
multiple of `M0` in either direction — so `is_degenerate` holds while the
claimed reconstruction fails. -/
theorem components_reconstruction_fails_on_M0 :
    fromLines ![1, 1, 0] ![0, 0, 1] = M0 ∧
    isDegenerate M0 ∧
    componentsPair M0 = (![0, 0, 2], ![0, 2, 0]) ∧
    ¬ Reconstructs M0 ∧
    ¬ IsScalarMultiple M0 (symPair ![0, 0, 2] ![0, 2, 0]) := by
  refine ⟨fromLines_M0, ?_, pair_M0, ?_, ?_⟩
  · norm_num [isDegenerate, M0, Matrix.det_fin_three]
  · rw [Reconstructs, pair_M0]
    rintro ⟨k, hk, heq⟩
    rw [symPair_M0] at heq
    have h02 := congrFun (congrFun heq 0) 2
    have h12 := congrFun (congrFun heq 1) 2
    simp [M0, Matrix.smul_apply] at h02 h12
    exact absurd (h02 ▸ h12) (by norm_num)
  · rintro ⟨k, hk, heq⟩
    rw [symPair_M0] at heq
    have h02 := congrFun (congrFun heq 0) 2
    simp [M0, Matrix.smul_apply] at h02

end Claim1

section Claim10

lemma symm_add_transpose {n : ℕ} (A : Matrix (Fin n) (Fin n) ℂ) :
    (A + A.transpose).transpose = A + A.transpose := by
  rw [Matrix.transpose_add, Matrix.transpose_transpose, add_comm]

lemma realIfClose_transpose (X : M3) (hX : X.transpose = X) :
    (realIfClose X).transpose = realIfClose X := by
  rw [realIfClose]
  split
  · rw [← Matrix.transpose_map, hX]
  · exact hX

/-- C10: each classmethod constructor symmetrizes its matrix as `m + mᵀ`
before construction, so `from_planes`, `from_lines`, `from_points` and
`from_crossratio` all produce exactly symmetric matrices; the plain
`Quadric(matrix)` constructor stores any matrix unchanged, performing no
symmetry validation. -/
theorem constructor_matrices_symmetric :
    (∀ (n : ℕ) (e f : Fin n → ℂ), (fromPlanes e f).transpose = fromPlanes e f) ∧
    (∀ g h : V3, (fromLines g h).transpose = fromLines g h) ∧
    (∀ a b c d e : V3, (fromPoints a b c d e).transpose = fromPoints a b c d e) ∧
    (∀ (cr : ℂ) (a b c d : V3),
      (fromCrossratio cr a b c d).transpose = fromCrossratio cr a b c d) ∧
    (∀ (n : ℕ) (M : Matrix (Fin n) (Fin n) ℂ) (fl : Bool),
      (QuadricD.mk M fl).matrix = M) := by
  refine ⟨?_, ?_, ?_, ?_, ?_⟩
  · intro n e f
    exact symm_add_transpose _
  · intro g h
    exact symm_add_transpose _
  · intro a b c d e
    rw [fromPoints]
    apply realIfClose_transpose
    simp only [fpRaw]
    exact symm_add_transpose _
  · intro cr a b c d
    simp only [fromCrossratio]
    exact symm_add_transpose _
  · intro n M fl
    rfl

end Claim10

section Claim4

/-- C4: for a non-degenerate quadric (nonzero determinant), applying `dual`
twice inverts the matrix twice — giving back a scalar multiple (in fact an
equal copy) of the original matrix — and flips the `is_dual` flag twice,
restoring it. -/
theorem dual_dual_proportional {n : ℕ} (q : QuadricD n) (h : q.matrix.det ≠ 0) :
    (∃ k : ℂ, k ≠ 0 ∧ (q.dual.dual).matrix = k • q.matrix) ∧
    (q.dual.dual).is_dual = q.is_dual := by
  constructor
  · refine ⟨1, one_ne_zero, ?_⟩
    rw [one_smul]
    show (q.matrix⁻¹)⁻¹ = q.matrix
    exact Matrix.nonsing_inv_nonsing_inv _ (isUnit_iff_ne_zero.mpr h)
  · exact Bool.not_not q.is_dual

/-- Witness for C4 at the identity conic: the hypothesis `det ≠ 0` holds and
the double dual reproduces the matrix and the flag. -/
theorem dual_dual_proportional_witness :
    (QuadricD.mk (1 : Matrix (Fin 3) (Fin 3) ℂ) false).matrix.det ≠ 0 ∧
    ((∃ k : ℂ, k ≠ 0 ∧
        ((QuadricD.mk (1 : Matrix (Fin 3) (Fin 3) ℂ) false).dual.dual).matrix =
          k • (QuadricD.mk (1 : Matrix (Fin 3) (Fin 3) ℂ) false).matrix) ∧
      ((QuadricD.mk (1 : Matrix (Fin 3) (Fin 3) ℂ) false).dual.dual).is_dual =
        (QuadricD.mk (1 : Matrix (Fin 3) (Fin 3) ℂ) false).is_dual) := by
  have h : (QuadricD.mk (1 : Matrix (Fin 3) (Fin 3) ℂ) false).matrix.det ≠ 0 := by
    simp [Matrix.det_one]
  exact ⟨h, dual_dual_proportional _ h⟩

end Claim4

/-- Real-matrix normalisation of homogeneous point coordinates, the real
instance of `Point.normalized_array`.  Modelled from the spec: divide by the
last coordinate when it is nonzero. -/
def normalizedR (v : Fin 3 → ℝ) : Fin 3 → ℝ := if v 2 = 0 then v else (v 2)⁻¹ • v

/-- `Ellipse.__init__(center, hradius, vradius)`: with
`r = [vradius**2, hradius**2, 1]` and `c = -center.normalized_array`, the
matrix is `diag(r)` with row 2 and column 2 replaced by `c*r` and the corner
by `r.dot(c**2) - (r[0]*r[1] + 1)`. -/
def ellipseMatrix (center : Fin 3 → ℝ) (hradius vradius : ℝ) :
    Matrix (Fin 3) (Fin 3) ℝ :=
  let r : Fin 3 → ℝ := ![vradius ^ 2, hradius ^ 2, 1]
  let c : Fin 3 → ℝ := -(normalizedR center)
  !![r 0, 0, c 0 * r 0;
     0, r 1, c 1 * r 1;
     c 0 * r 0, c 1 * r 1,
       (r 0 * c 0 ^ 2 + r 1 * c 1 ^ 2 + r 2 * c 2 ^ 2) - (r 0 * r 1 + 1)]

/-- `Circle.__init__(center, radius)`: an ellipse with both radii equal. -/
def circleMatrix (center : Fin 3 → ℝ) (radius : ℝ) : Matrix (Fin 3) (Fin 3) ℝ :=
  ellipseMatrix center radius radius

/-- The unit circle `Circle(center=Point(0, 0), radius=1)`;
`Point(0, 0)` has homogeneous coordinates `(0, 0, 1)`. -/
def unitCircleM : Matrix (Fin 3) (Fin 3) ℝ := circleMatrix ![0, 0, 1] 1

/-- `Circle.radius`: with `c = array[:2, 2] / array[0, 0]`, the radius is
`sqrt(c.dot(c) - array[2, 2] / array[0, 0])`. -/
def circleRadius (M : Matrix (Fin 3) (Fin 3) ℝ) : ℝ :=
  Real.sqrt ((M 0 2 / M 0 0) ^ 2 + (M 1 2 / M 0 0) ^ 2 - M 2 2 / M 0 0)

/-- `Circle.area`: the source computes `2*np.pi*self.radius**2`. -/
def circleArea (M : Matrix (Fin 3) (Fin 3) ℝ) : ℝ :=
  2 * Real.pi * circleRadius M ^ 2

section Claim5

lemma unitCircleM_eq : unitCircleM = !![1, 0, 0; 0, 1, 0; 0, 0, -1] := by
  ext i j
  fin_cases i <;> fin_cases j <;>
    norm_num [unitCircleM, circleMatrix, ellipseMatrix, normalizedR,
      Matrix.vecHead, Matrix.vecTail]

lemma circleRadius_unit : circleRadius unitCircleM = 1 := by
  rw [circleRadius, unitCircleM_eq]
  norm_num [Matrix.vecHead, Matrix.vecTail]

/-- C5: `Circle(radius=1).area()` evaluates to `2π`, not the claimed `π`:
the source multiplies by `2` (`2*np.pi*self.radius**2`), so the stated
identity `area = π·r²` fails for the unit circle. -/
theorem circle_area_is_two_pi :
    circleArea unitCircleM = 2 * Real.pi ∧ (2 : ℝ) * Real.pi ≠ Real.pi := by
  constructor
  · rw [circleArea, circleRadius_unit]
    ring
  · intro h
    have hpi := Real.pi_ne_zero
    apply hpi
    linarith

end Claim5

/-- The rank-3 Levi-Civita (alternating) tensor.  Modelled from the spec:
`LeviCivitaTensor(3)` of the external tensor engine. -/
def leviCivita3 : Fin 3 → Fin 3 → Fin 3 → ℂ :=
  ![![![0, 0, 0], ![0, 0, 1], ![0, -1, 0]],
    ![![0, 0, -1], ![0, 0, 0], ![1, 0, 0]],
    ![![0, 1, 0], ![-1, 0, 0], ![0, 0, 0]]]

/-- The linear map `m` of `Quadric.intersect` on a line in the plane:
`TensorDiagram((e, other))` contracts the alternating tensor once against
the line covector.  Modelled from the spec: "contract it n-2 times against
the line to obtain a linear map m" (the sign/index convention cancels in
`b = mᵀ·M·m`). -/
def lineContractM (l : V3) : M3 :=
  Matrix.of fun i j => ∑ k : Fin 3, leviCivita3 i j k * l k

/-- Equality of projective elements up to a nonzero scalar.  Modelled from
the spec: the external primitives compare coordinate vectors up to scale. -/
def ProjEq (u v : V3) : Prop := ∃ k : ℂ, k ≠ 0 ∧ v = k • u

/-- `Quadric.intersect(line)` for a plane conic (`n = 3`, `is_dual=False`):
if degenerate, meet each component line with the given line; otherwise form
`b = mᵀ·M·m` from the contracted alternating tensor and decompose the dual
quadric `b`; return the single point `p` when `p == q`, else the pair. -/
def quadricIntersectLine (M : M3) (l : V3) : List V3 :=
  let pq :=
    if M.det = 0 then
      let ef := componentsPair M
      (cross3 ef.1 l, cross3 ef.2 l)
    else
      let m := lineContractM l
      componentsPair (m.transpose * M * m)
  if ProjEq pq.1 pq.2 then [pq.1] else [pq.1, pq.2]

section Claim3

/-- The unit-circle conic matrix cast to the complex dtype used by the
intersection machinery. -/
def unitCircleMC : M3 := unitCircleM.map (fun x => (x : ℂ))

lemma unitCircleMC_eq : unitCircleMC = !![1, 0, 0; 0, 1, 0; 0, 0, -1] := by
  rw [unitCircleMC, unitCircleM_eq]
  ext i j
  fin_cases i <;> fin_cases j <;>
    norm_num [Matrix.map_apply, Matrix.vecHead, Matrix.vecTail]

lemma lineContractM_x0 : lineContractM ![1, 0, 0] = !![0, 0, 0; 0, 0, 1; 0, -1, 0] := by
  ext i j
  fin_cases i <;> fin_cases j <;>
    norm_num [lineContractM, leviCivita3, Fin.sum_univ_three,
      Matrix.vecHead, Matrix.vecTail]

/-- The dual quadric `b = mᵀ·M·m` arising from the unit circle and the line
`x = 0`. -/
def bMat : M3 := !![0, 0, 0; 0, -1, 0; 0, 0, 1]

lemma bMat_eq :
    (lineContractM ![1, 0, 0]).transpose * unitCircleMC * lineContractM ![1, 0, 0] =
      bMat := by
  rw [lineContractM_x0, unitCircleMC_eq]
  ext i j
  fin_cases i <;> fin_cases j <;>
    norm_num [bMat, Matrix.mul_apply, Fin.sum_univ_three,
      Matrix.vecHead, Matrix.vecTail]

lemma componentsX_bMat : componentsX bMat = ![1, 0, 0] := by
  funext k
  fin_cases k <;>
    simp [componentsX, minor3, bMat] <;>
    norm_num [csqrt_one, csqrt_zero]

lemma componentsT_bMat : componentsT bMat = !![0, 0, 0; 0, -1, 1; 0, -1, 1] := by
  rw [componentsT, componentsX_bMat]
  ext i j
  fin_cases i <;> fin_cases j <;>
    norm_num [hat3, bMat, Matrix.vecHead, Matrix.vecTail]

lemma argmax_bMat : argmaxAbs (componentsT bMat) = (1, 1) := by
  rw [componentsT_bMat]
  rw [argmaxAbs, idxList]
  norm_num [npAbs, List.foldl_cons, List.foldl_nil, Matrix.vecHead, Matrix.vecTail]

lemma pair_bMat : componentsPair bMat = (![0, -1, 1], ![0, -1, -1]) := by
  rw [componentsPair, argmax_bMat, componentsT_bMat]
  rw [Prod.mk.injEq]
  constructor <;> funext i <;> fin_cases i <;>
    norm_num [Matrix.vecHead, Matrix.vecTail]

lemma not_projEq_bpair : ¬ ProjEq (![0, -1, 1] : V3) ![0, -1, -1] := by
  rintro ⟨k, hk, heq⟩
  have h1 := congrFun heq 1
  have h2 := congrFun heq 2
  simp [Pi.smul_apply] at h1 h2
  rw [← h1] at h2
  norm_num at h2

/-- C3: intersecting `Circle(Point(0,0), 1)` with the line `x = 0`
(coefficient vector `(1,0,0)`) returns exactly two points, namely
`(0,-1,1)` — the point `(0,-1)` — and `(0,-1,-1)`, which equals the point
`(0,1)` up to the projective scale `-1`. -/
theorem circle_intersect_line_x0 :
    quadricIntersectLine unitCircleMC ![1, 0, 0] = [![0, -1, 1], ![0, -1, -1]] ∧
    ProjEq ![0, -1, 1] ![0, -1, 1] ∧
    ProjEq ![0, 1, 1] ![0, -1, -1] := by
  refine ⟨?_, ⟨1, one_ne_zero, (one_smul _ _).symm⟩, ⟨-1, by norm_num, ?_⟩⟩
  · rw [quadricIntersectLine]
    have hdet : ¬ unitCircleMC.det = 0 := by
      rw [unitCircleMC_eq]
      norm_num [Matrix.det_fin_three, Matrix.vecHead, Matrix.vecTail]
    rw [if_neg hdet]
    simp only [bMat_eq, pair_bMat]
    rw [if_neg not_projEq_bpair]
  · funext i
    fin_cases i <;> norm_num [Matrix.vecHead, Matrix.vecTail]

end Claim3

/-- `Quadric.tangent(at)`: the hyperplane `self.array.dot(at.array)`. -/
def quadricTangent (M : M3) (p : V3) : V3 := M.mulVec p

/-- The value `other.array.dot(self.array.dot(other.array))` whose closeness
to zero `Quadric.contains` tests. -/
def quadricContainsVal (M : M3) (p : V3) : ℂ := dot3 p (M.mulVec p)

/-- `AlgebraicCurve` stores the coefficient tensor of a homogeneous
polynomial in 3 variables (the constructor homogenizes); `MvPolynomial`
is exactly that indexed family of coefficients.  `tangent(at)` evaluates
each partial derivative of the coefficient array (`np.polynomial.polyder` /
`polyval`) at the point, giving the gradient covector of the tangent line. -/
def curveTangent (f : MvPolynomial (Fin 3) ℝ) (p : Fin 3 → ℝ) : Fin 3 → ℝ :=
  fun i => MvPolynomial.eval p (MvPolynomial.pderiv i f)

section Claim2

lemma finsuppProd_pow (p : Fin 3 → ℝ) (s : Fin 3 →₀ ℕ) :
    (s.prod fun i e => p i ^ e) = ∏ i : Fin 3, p i ^ s i :=
  Finsupp.prod_fintype _ _ (fun i => pow_zero (p i))

lemma euler_term (p : Fin 3 → ℝ) (s : Fin 3 →₀ ℕ) (a : ℝ) (i : Fin 3) :
    p i * MvPolynomial.eval p (MvPolynomial.pderiv i (MvPolynomial.monomial s a)) =
      (s i : ℝ) * MvPolynomial.eval p (MvPolynomial.monomial s a) := by
  rcases Nat.eq_zero_or_pos (s i) with h | h
  · simp [MvPolynomial.pderiv_monomial, h]
  · rw [MvPolynomial.pderiv_monomial, MvPolynomial.eval_monomial,
      MvPolynomial.eval_monomial, finsuppProd_pow, finsuppProd_pow]
    set t : Fin 3 →₀ ℕ := s - Finsupp.single i 1 with ht
    have hsub : ∀ j : Fin 3, t j = if j = i then s i - 1 else s j := by
      intro j
      rw [ht, Finsupp.tsub_apply, Finsupp.single_apply]
      by_cases hj : j = i
      · simp [hj]
      · simp [hj, Ne.symm hj]
    have hprod : p i * ∏ j : Fin 3, p j ^ t j = ∏ j : Fin 3, p j ^ s j := by
      rw [← Finset.mul_prod_erase Finset.univ (fun j => p j ^ t j) (Finset.mem_univ i),
        ← Finset.mul_prod_erase Finset.univ (fun j => p j ^ s j) (Finset.mem_univ i)]
      have herase : ∏ j ∈ Finset.univ.erase i, p j ^ t j =
          ∏ j ∈ Finset.univ.erase i, p j ^ s j := by
        apply Finset.prod_congr rfl
        intro j hj
        rw [hsub j, if_neg (Finset.ne_of_mem_erase hj)]
      rw [herase, ← mul_assoc]
      congr 1
      rw [hsub i, if_pos rfl, mul_comm, ← pow_succ]
      congr 1
      omega
    calc p i * (a * (s i : ℝ) * ∏ j : Fin 3, p j ^ t j) =
        a * (s i : ℝ) * (p i * ∏ j : Fin 3, p j ^ t j) := by ring
      _ = a * (s i : ℝ) * ∏ j : Fin 3, p j ^ s j := by rw [hprod]
      _ = (s i : ℝ) * (a * ∏ j : Fin 3, p j ^ s j) := by ring

lemma degree_eq_sum_fin (s : Fin 3 →₀ ℕ) :
    Finsupp.degree s = ∑ i : Fin 3, s i := by
  rw [Finsupp.degree]
  exact Finset.sum_subset (Finset.subset_univ _)
    (fun i _ hni => Finsupp.not_mem_support_iff.mp hni)

lemma euler_identity (f : MvPolynomial (Fin 3) ℝ) (d : ℕ)
    (hf : f.IsHomogeneous d) (p : Fin 3 → ℝ) :
    ∑ i : Fin 3, p i * MvPolynomial.eval p (MvPolynomial.pderiv i f) =
      (d : ℝ) * MvPolynomial.eval p f := by
  calc ∑ i : Fin 3, p i * MvPolynomial.eval p (MvPolynomial.pderiv i f) =
      ∑ i : Fin 3, ∑ v ∈ f.support, p i * MvPolynomial.eval p
        (MvPolynomial.pderiv i (MvPolynomial.monomial v (MvPolynomial.coeff v f))) := by
        apply Finset.sum_congr rfl
        intro i _
        conv_lhs => rw [f.as_sum]
        rw [map_sum, map_sum, Finset.mul_sum]
    _ = ∑ v ∈ f.support, ∑ i : Fin 3, p i * MvPolynomial.eval p
        (MvPolynomial.pderiv i (MvPolynomial.monomial v (MvPolynomial.coeff v f))) :=
        Finset.sum_comm
    _ = ∑ v ∈ f.support, (d : ℝ) * MvPolynomial.eval p
        (MvPolynomial.monomial v (MvPolynomial.coeff v f)) := by
        apply Finset.sum_congr rfl
        intro v hv
        have hcoeff : MvPolynomial.coeff v f ≠ 0 := MvPolynomial.mem_support_iff.mp hv
        have hdeg2 : ∑ i : Fin 3, v i = d := by
          rw [← degree_eq_sum_fin, Finsupp.degree_eq_weight_one]
          exact hf hcoeff
        calc ∑ i : Fin 3, p i * MvPolynomial.eval p (MvPolynomial.pderiv i
              (MvPolynomial.monomial v (MvPolynomial.coeff v f))) =
            ∑ i : Fin 3, (v i : ℝ) * MvPolynomial.eval p
              (MvPolynomial.monomial v (MvPolynomial.coeff v f)) := by
              apply Finset.sum_congr rfl
              intro i _
              exact euler_term p v _ i
          _ = (d : ℝ) * MvPolynomial.eval p
              (MvPolynomial.monomial v (MvPolynomial.coeff v f)) := by
              rw [← Finset.sum_mul]
              congr 1
              rw [← hdeg2]
              push_cast
              rfl
    _ = (d : ℝ) * MvPolynomial.eval p f := by
        rw [← Finset.mul_sum]
        congr 1
        rw [← map_sum]
        congr 1
        exact f.as_sum.symm

/-- C2: the tangent returned at a point of the variety passes through that
point.  For a quadric, `tangent(p) = M·p` and the incidence value
`(M·p)·p` is literally the `contains` test value `p·(M·p)`, so the tangent
hyperplane passes through `p` within the same tolerance.  For an algebraic
curve, whose stored polynomial is homogeneous of degree `d`, the gradient
line of `tangent(p)` contains `p` by the Euler identity
`Σ pᵢ·∂ᵢf(p) = d·f(p) = 0`. -/
theorem tangent_passes_through_point :
    (∀ (M : M3) (p : V3) (tol : ℝ),
      Complex.abs (quadricContainsVal M p) ≤ tol →
        Complex.abs (dot3 (quadricTangent M p) p) ≤ tol) ∧
    (∀ (f : MvPolynomial (Fin 3) ℝ) (d : ℕ) (p : Fin 3 → ℝ),
      f.IsHomogeneous d → MvPolynomial.eval p f = 0 →
        ∑ i : Fin 3, curveTangent f p i * p i = 0) := by
  constructor
  · intro M p tol h
    have hsame : dot3 (quadricTangent M p) p = quadricContainsVal M p := by
      rw [dot3, quadricTangent, quadricContainsVal, dot3]
      ring
    rwa [hsame]
  · intro f d p hf hp
    have heuler := euler_identity f d hf p
    rw [hp, mul_zero] at heuler
    rw [← heuler]
    apply Finset.sum_congr rfl
    intro i _
    rw [curveTangent, mul_comm]

/-- Witness for C2: the point `(1, 0)` on the unit circle and on the curve
`x² + y² - z²` (degree-2 homogeneous), where both tangents contain the
point. -/
theorem tangent_passes_through_point_witness :
    (Complex.abs (quadricContainsVal unitCircleMC ![1, 0, 1]) ≤ 0 ∧
      Complex.abs (dot3 (quadricTangent unitCircleMC ![1, 0, 1]) ![1, 0, 1]) ≤ 0) ∧
    ((MvPolynomial.X 0 ^ 2 + MvPolynomial.X 1 ^ 2 - MvPolynomial.X 2 ^ 2 :
        MvPolynomial (Fin 3) ℝ).IsHomogeneous 2 ∧
      MvPolynomial.eval ![1, 0, 1]
        (MvPolynomial.X 0 ^ 2 + MvPolynomial.X 1 ^ 2 - MvPolynomial.X 2 ^ 2 :
          MvPolynomial (Fin 3) ℝ) = 0 ∧
      ∑ i : Fin 3, curveTangent
        (MvPolynomial.X 0 ^ 2 + MvPolynomial.X 1 ^ 2 - MvPolynomial.X 2 ^ 2)
        ![1, 0, 1] i * (![1, 0, 1] : Fin 3 → ℝ) i = 0) := by
  have h1 : Complex.abs (quadricContainsVal unitCircleMC ![1, 0, 1]) ≤ 0 := by
    have : quadricContainsVal unitCircleMC ![1, 0, 1] = 0 := by
      rw [quadricContainsVal, unitCircleMC_eq, dot3]
      norm_num [Matrix.mulVec, Matrix.dotProduct, Fin.sum_univ_three,
        Matrix.vecHead, Matrix.vecTail]
    rw [this]
    simp
  have hhom : (MvPolynomial.X 0 ^ 2 + MvPolynomial.X 1 ^ 2 - MvPolynomial.X 2 ^ 2 :
      MvPolynomial (Fin 3) ℝ).IsHomogeneous 2 :=
    ((MvPolynomial.isHomogeneous_X_pow 0 2).add
      (MvPolynomial.isHomogeneous_X_pow 1 2)).sub
      (MvPolynomial.isHomogeneous_X_pow 2 2)
  have heval : MvPolynomial.eval ![1, 0, 1]
      (MvPolynomial.X 0 ^ 2 + MvPolynomial.X 1 ^ 2 - MvPolynomial.X 2 ^ 2 :
        MvPolynomial (Fin 3) ℝ) = 0 := by
    norm_num [Matrix.vecHead, Matrix.vecTail]
  exact ⟨⟨h1, tangent_passes_through_point.1 _ _ _ h1⟩,
    ⟨hhom, heval, tangent_passes_through_point.2 _ 2 _ hhom heval⟩⟩

end Claim2

/-- The first candidate fifth point `x = c1*a1 + c2*a2` of
`Conic.from_tangent`, where `a1, a2, b1, b2` are the normalized meets of the
lines `ac, bd, ab, cd` with the tangent, `o` models the external
`tangent.general_point` (a point in general position off the line), and
`c1 = csqrt(det(o,a2,b1)*det(o,a2,b2))`, `c2 = csqrt(det(o,a1,b1)*det(o,a1,b2))`. -/
def candX (o t a b c d : V3) : V3 :=
  let a1 := normalizedC (cross3 (cross3 a c) t)
  let a2 := normalizedC (cross3 (cross3 b d) t)
  let b1 := normalizedC (cross3 (cross3 a b) t)
  let b2 := normalizedC (cross3 (cross3 c d) t)
  csqrt (det3 o a2 b1 * det3 o a2 b2) • a1 +
    csqrt (det3 o a1 b1 * det3 o a1 b2) • a2

/-- The second candidate fifth point `y = c1*a1 - c2*a2` of
`Conic.from_tangent`. -/
def candY (o t a b c d : V3) : V3 :=
  let a1 := normalizedC (cross3 (cross3 a c) t)
  let a2 := normalizedC (cross3 (cross3 b d) t)
  let b1 := normalizedC (cross3 (cross3 a b) t)
  let b2 := normalizedC (cross3 (cross3 c d) t)
  csqrt (det3 o a2 b1 * det3 o a2 b2) • a1 -
    csqrt (det3 o a1 b1 * det3 o a1 b2) • a2

/-- `Conic.from_tangent(tangent, a, b, c, d)`: raises a `ValueError` when
the tangent contains one of the four points (incidence of the external
`Line.contains` modelled as a vanishing dot product); otherwise builds the
conic through `a, b, c, d` and the candidate fifth point `x`, returning it
when its matrix is all-real and otherwise the conic through the second
candidate `y`.  The argument `o` models the external
`tangent.general_point`. -/
def fromTangent (o t a b c d : V3) : Except String M3 :=
  if dot3 t a = 0 ∨ dot3 t b = 0 ∨ dot3 t c = 0 ∨ dot3 t d = 0 then
    Except.error "The supplied points cannot lie on the supplied tangent!"
  else
    let conic := fromPoints a b c d (candX o t a b c d)
    if allRealM conic then Except.ok conic
    else Except.ok (fromPoints a b c d (candY o t a b c d))

section Claim7

/-- C7: `from_tangent` fails with the invalid-configuration `ValueError` if
and only if the supplied tangent passes through at least one of the four
supplied points; the error value carries no conic, so nothing is
constructed on failure. -/
theorem from_tangent_error_iff (o t a b c d : V3) :
    fromTangent o t a b c d =
        Except.error "The supplied points cannot lie on the supplied tangent!" ↔
      (dot3 t a = 0 ∨ dot3 t b = 0 ∨ dot3 t c = 0 ∨ dot3 t d = 0) := by
  by_cases hg : dot3 t a = 0 ∨ dot3 t b = 0 ∨ dot3 t c = 0 ∨ dot3 t d = 0
  · simp [fromTangent, hg]
  · simp only [fromTangent, if_neg hg]
    constructor
    · intro heq
      exfalso
      revert heq
      split <;> intro heq <;> exact Except.noConfusion heq
    · intro hcontra
      exact absurd hcontra hg

end Claim7

section Claim6

lemma normalizedC_lastone (v : V3) (hv : v 2 = 1) : normalizedC v = v := by
  rw [normalizedC, if_neg (by rw [hv]; exact one_ne_zero), hv, inv_one, one_smul]

lemma csqrt_ofReal_neg (r : ℝ) (hr : r < 0) :
    csqrt ((r : ℝ) : ℂ) = Complex.I * ((Real.sqrt (-r) : ℝ) : ℂ) := by
  rw [csqrt, if_pos (Complex.ofReal_im r), if_neg]
  · rw [Complex.ofReal_re]
  · rw [Complex.ofReal_re]
    exact not_le.mpr hr

/-- C6 (amended): when the guard passes, `from_tangent` returns the conic
through `a, b, c, d` and the candidate `x = c1*a1 + c2*a2` whenever that
conic's matrix is all-real, and otherwise the conic through the second
candidate `y = c1*a1 - c2*a2` — without checking that the latter is
all-real. -/
theorem from_tangent_picks_real_candidate (o t a b c d : V3)
    (h : ¬(dot3 t a = 0 ∨ dot3 t b = 0 ∨ dot3 t c = 0 ∨ dot3 t d = 0)) :
    fromTangent o t a b c d =
      if allRealM (fromPoints a b c d (candX o t a b c d))
      then Except.ok (fromPoints a b c d (candX o t a b c d))
      else Except.ok (fromPoints a b c d (candY o t a b c d)) := by
  rw [fromTangent, if_neg h]

/-- A point in general position with respect to the tangent line below,
modelling `tangent.general_point`. -/
def oPt : V3 := ![0, 0, 1]

/-- The tangent line `y = 1/2`, with coefficient vector `(0, 2, -1)`. -/
def tLn : V3 := ![0, 2, -1]

/-- The four base points `(1,0), (0,1), (-1,0), (0,-1)` of the
configuration on which no real conic through them is tangent to `tLn`. -/
def aPt : V3 := ![1, 0, 1]

def bPt : V3 := ![0, 1, 1]

def cPt : V3 := ![-1, 0, 1]

def dPt : V3 := ![0, -1, 1]

/-- The square root `sqrt(3/16)` occurring in the candidate points of the
configuration. -/
def sqrtC : ℂ := ((Real.sqrt (3 / 16) : ℝ) : ℂ)

lemma guard_config :
    ¬(dot3 tLn aPt = 0 ∨ dot3 tLn bPt = 0 ∨ dot3 tLn cPt = 0 ∨ dot3 tLn dPt = 0) := by
  norm_num [dot3, tLn, aPt, bPt, cPt, dPt, Matrix.vecHead, Matrix.vecTail]

lemma a1_config : normalizedC (cross3 (cross3 aPt cPt) tLn) = ![2, 0, 0] := by
  have h1 : cross3 aPt cPt = ![0, -2, 0] := by
    funext i
    fin_cases i <;> norm_num [cross3, aPt, cPt, Matrix.vecHead, Matrix.vecTail]
  have h2 : cross3 ![0, -2, 0] tLn = ![2, 0, 0] := by
    funext i
    fin_cases i <;> norm_num [cross3, tLn, Matrix.vecHead, Matrix.vecTail]
  rw [h1, h2, normalizedC, if_pos]
  norm_num [Matrix.vecHead, Matrix.vecTail]

lemma a2_config : normalizedC (cross3 (cross3 bPt dPt) tLn) = ![0, 1 / 2, 1] := by
  have h1 : cross3 bPt dPt = ![2, 0, 0] := by
    funext i
    fin_cases i <;> norm_num [cross3, bPt, dPt, Matrix.vecHead, Matrix.vecTail]
  have h2 : cross3 ![2, 0, 0] tLn = ![0, 2, 4] := by
    funext i
    fin_cases i <;> norm_num [cross3, tLn, Matrix.vecHead, Matrix.vecTail]
  rw [h1, h2, normalizedC, if_neg (by norm_num [Matrix.vecHead, Matrix.vecTail])]
  funext i
  fin_cases i <;> norm_num [Matrix.vecHead, Matrix.vecTail]

lemma b1_config : normalizedC (cross3 (cross3 aPt bPt) tLn) = ![1 / 2, 1 / 2, 1] := by
  have h1 : cross3 aPt bPt = ![-1, -1, 1] := by
    funext i
    fin_cases i <;> norm_num [cross3, aPt, bPt, Matrix.vecHead, Matrix.vecTail]
  have h2 : cross3 ![-1, -1, 1] tLn = ![-1, -1, -2] := by
    funext i
    fin_cases i <;> norm_num [cross3, tLn, Matrix.vecHead, Matrix.vecTail]
  rw [h1, h2, normalizedC, if_neg (by norm_num [Matrix.vecHead, Matrix.vecTail])]
  funext i
  fin_cases i <;> norm_num [Matrix.vecHead, Matrix.vecTail]

lemma b2_config : normalizedC (cross3 (cross3 cPt dPt) tLn) = ![-(3 / 2), 1 / 2, 1] := by
  have h1 : cross3 cPt dPt = ![1, 1, 1] := by
    funext i
    fin_cases i <;> norm_num [cross3, cPt, dPt, Matrix.vecHead, Matrix.vecTail]
  have h2 : cross3 ![1, 1, 1] tLn = ![-3, 1, 2] := by
    funext i
    fin_cases i <;> norm_num [cross3, tLn, Matrix.vecHead, Matrix.vecTail]
  rw [h1, h2, normalizedC, if_neg (by norm_num [Matrix.vecHead, Matrix.vecTail])]
  funext i
  fin_cases i <;> norm_num [Matrix.vecHead, Matrix.vecTail]

lemma det_oa2b1 : det3 oPt ![0, 1 / 2, 1] ![1 / 2, 1 / 2, 1] = -(1 / 4) := by
  norm_num [det3, dot3, cross3, oPt, Matrix.vecHead, Matrix.vecTail]

lemma det_oa2b2 : det3 oPt ![0, 1 / 2, 1] ![-(3 / 2), 1 / 2, 1] = 3 / 4 := by
  norm_num [det3, dot3, cross3, oPt, Matrix.vecHead, Matrix.vecTail]

lemma det_oa1b1 : det3 oPt ![2, 0, 0] ![1 / 2, 1 / 2, 1] = 1 := by
  norm_num [det3, dot3, cross3, oPt, Matrix.vecHead, Matrix.vecTail]

lemma det_oa1b2 : det3 oPt ![2, 0, 0] ![-(3 / 2), 1 / 2, 1] = 1 := by
  norm_num [det3, dot3, cross3, oPt, Matrix.vecHead, Matrix.vecTail]

lemma c1_config : csqrt (-(1 / 4) * (3 / 4)) = Complex.I * sqrtC := by
  have h : (-(1 / 4) * (3 / 4) : ℂ) = ((-(3 / 16) : ℝ) : ℂ) := by
    push_cast
    ring
  rw [h, csqrt_ofReal_neg _ (by norm_num), sqrtC]
  norm_num

lemma candX_config :
    candX oPt tLn aPt bPt cPt dPt = ![Complex.I * sqrtC * 2, 1 / 2, 1] := by
  simp only [candX, a1_config, a2_config, b1_config, b2_config,
    det_oa2b1, det_oa2b2, det_oa1b1, det_oa1b2, c1_config, one_mul, csqrt_one]
  funext i
  fin_cases i <;>
    simp [Matrix.vecHead, Matrix.vecTail]

lemma candY_config :
    candY oPt tLn aPt bPt cPt dPt = ![Complex.I * sqrtC * 2, -(1 / 2), -1] := by
  simp only [candY, a1_config, a2_config, b1_config, b2_config,
    det_oa2b1, det_oa2b2, det_oa1b1, det_oa1b2, c1_config, one_mul, csqrt_one]
  funext i
  fin_cases i <;>
    simp [Matrix.vecHead, Matrix.vecTail]

lemma norm_aPt : normalizedC aPt = aPt :=
  normalizedC_lastone _ (by norm_num [aPt, Matrix.vecHead, Matrix.vecTail])

lemma norm_bPt : normalizedC bPt = bPt :=
  normalizedC_lastone _ (by norm_num [bPt, Matrix.vecHead, Matrix.vecTail])

lemma norm_cPt : normalizedC cPt = cPt :=
  normalizedC_lastone _ (by norm_num [cPt, Matrix.vecHead, Matrix.vecTail])

lemma norm_dPt : normalizedC dPt = dPt :=
  normalizedC_lastone _ (by norm_num [dPt, Matrix.vecHead, Matrix.vecTail])

lemma fpRaw_x00 :
    fpRaw aPt bPt cPt dPt ![Complex.I * sqrtC * 2, 1 / 2, 1] 0 0 =
      -(8 : ℂ) * sqrtC * Complex.I := by
  have hx : normalizedC ![Complex.I * sqrtC * 2, 1 / 2, 1] =
      ![Complex.I * sqrtC * 2, 1 / 2, 1] :=
    normalizedC_lastone _ (by norm_num [Matrix.vecHead, Matrix.vecTail])
  simp only [fpRaw, hx, norm_aPt, norm_bPt, norm_cPt, norm_dPt]
  norm_num [det3, dot3, cross3, aPt, bPt, cPt, dPt, Matrix.add_apply,
    Matrix.sub_apply, Matrix.smul_apply, Matrix.transpose_apply,
    Matrix.vecMulVec_apply, Matrix.vecHead, Matrix.vecTail]
  ring

lemma fpRaw_y00 :
    fpRaw aPt bPt cPt dPt ![Complex.I * sqrtC * 2, -(1 / 2), -1] 0 0 =
      (8 : ℂ) * sqrtC * Complex.I := by
  have hy : normalizedC ![Complex.I * sqrtC * 2, -(1 / 2), -1] =
      ![-(Complex.I * sqrtC * 2), 1 / 2, 1] := by
    rw [normalizedC, if_neg (by norm_num [Matrix.vecHead, Matrix.vecTail])]
    funext i
    fin_cases i <;> simp [Matrix.vecHead, Matrix.vecTail] <;> ring
  simp only [fpRaw, hy, norm_aPt, norm_bPt, norm_cPt, norm_dPt]
  norm_num [det3, dot3, cross3, aPt, bPt, cPt, dPt, Matrix.add_apply,
    Matrix.sub_apply, Matrix.smul_apply, Matrix.transpose_apply,
    Matrix.vecMulVec_apply, Matrix.vecHead, Matrix.vecTail]
  ring

lemma sqrt316_pos : 0 < Real.sqrt (3 / 16) :=
  Real.sqrt_pos.mpr (by norm_num)

lemma mul_sqrtC_I_im (r : ℝ) :
    ((r : ℂ) * sqrtC * Complex.I).im = r * Real.sqrt (3 / 16) := by
  simp [sqrtC, Complex.mul_im, Complex.mul_re]

lemma notreal_fpRaw_x :
    ¬ allRealM (fpRaw aPt bPt cPt dPt ![Complex.I * sqrtC * 2, 1 / 2, 1]) := by
  intro h
  have h00 := h 0 0
  rw [fpRaw_x00] at h00
  have him : ((-(8 : ℂ)) * sqrtC * Complex.I).im = (-8 : ℝ) * Real.sqrt (3 / 16) := by
    have := mul_sqrtC_I_im (-8)
    simpa using this
  rw [show (-(8 : ℂ) * sqrtC * Complex.I) = ((-8 : ℂ) * sqrtC * Complex.I) from by ring] at h00
  rw [him] at h00
  have := sqrt316_pos
  nlinarith

lemma notreal_fpRaw_y :
    ¬ allRealM (fpRaw aPt bPt cPt dPt ![Complex.I * sqrtC * 2, -(1 / 2), -1]) := by
  intro h
  have h00 := h 0 0
  rw [fpRaw_y00] at h00
  have him : ((8 : ℂ) * sqrtC * Complex.I).im = (8 : ℝ) * Real.sqrt (3 / 16) := by
    have := mul_sqrtC_I_im 8
    simpa using this
  rw [him] at h00
  have := sqrt316_pos
  nlinarith

lemma fromPoints_x_eq :
    fromPoints aPt bPt cPt dPt ![Complex.I * sqrtC * 2, 1 / 2, 1] =
      fpRaw aPt bPt cPt dPt ![Complex.I * sqrtC * 2, 1 / 2, 1] := by
  rw [fromPoints, realIfClose, if_neg notreal_fpRaw_x]

lemma fromPoints_y_eq :
    fromPoints aPt bPt cPt dPt ![Complex.I * sqrtC * 2, -(1 / 2), -1] =
      fpRaw aPt bPt cPt dPt ![Complex.I * sqrtC * 2, -(1 / 2), -1] := by
  rw [fromPoints, realIfClose, if_neg notreal_fpRaw_y]

/-- C6 (counterexample to the claim as stated): for the four points
`(1,0), (0,1), (-1,0), (0,-1)` and the tangent line `y = 1/2` — which
passes through none of them — no real conic through the four points is
tangent to the line; `from_tangent` then returns the `y`-candidate conic
whose matrix is not all-real (its `(0,0)` entry is `8*sqrt(3/16)*i`),
refuting "the returned conic's matrix is always all-real". -/
theorem from_tangent_nonreal_result :
    ∃ A : M3, fromTangent oPt tLn aPt bPt cPt dPt = Except.ok A ∧ ¬ allRealM A := by
  refine ⟨fromPoints aPt bPt cPt dPt (candY oPt tLn aPt bPt cPt dPt), ?_, ?_⟩
  · rw [fromTangent, if_neg guard_config]
    have hnot : ¬ allRealM (fromPoints aPt bPt cPt dPt (candX oPt tLn aPt bPt cPt dPt)) := by
      rw [candX_config, fromPoints_x_eq]
      exact notreal_fpRaw_x
    rw [if_neg hnot]
  · rw [candY_config, fromPoints_y_eq]
    exact notreal_fpRaw_y

/-- Witness for the amended C6 at the same concrete configuration: the
guard hypothesis holds and `from_tangent` returns the candidate selected by
the all-real test. -/
theorem from_tangent_picks_real_candidate_witness :
    ¬(dot3 tLn aPt = 0 ∨ dot3 tLn bPt = 0 ∨ dot3 tLn cPt = 0 ∨ dot3 tLn dPt = 0) ∧
    fromTangent oPt tLn aPt bPt cPt dPt =
      (if allRealM (fromPoints aPt bPt cPt dPt (candX oPt tLn aPt bPt cPt dPt))
       then Except.ok (fromPoints aPt bPt cPt dPt (candX oPt tLn aPt bPt cPt dPt))
       else Except.ok (fromPoints aPt bPt cPt dPt (candY oPt tLn aPt bPt cPt dPt))) :=
  ⟨guard_config,
    from_tangent_picks_real_candidate oPt tLn aPt bPt cPt dPt guard_config⟩

end Claim6

/-- One affine chart of the solver loop of `AlgebraicCurve.intersect`:
substituting `z` for the last symbol and calling `sympy.solve_poly_system`
is external symbolic computation, modelled by the oracle `solveChart`
returning `none` exactly when the solver raises `NotImplementedError`
(unsupported system shape).  On success each solution is padded with the
chart value `z`. -/
def chartSols (solveChart : ℚ → Option (List (List ℚ))) (z : ℚ) : List (List ℚ) :=
  match solveChart z with
  | none => []
  | some xs => xs.map (fun v => v ++ [z])

/-- The solver loop of `AlgebraicCurve.intersect` (`for z in [0, 1]` with
`try/except NotImplementedError: continue`): the union of the solutions of
the two charts — a failed chart contributing nothing — deduplicated (the
Python `set`, taken here in chart order) and filtered of zero tensors. -/
def curveIntersectCore (solveChart : ℚ → Option (List (List ℚ))) : List (List ℚ) :=
  ((chartSols solveChart 0 ++ chartSols solveChart 1).dedup).filter
    (fun v => !v.all (fun x => x == 0))

section Claim8

/-- C8: if the polynomial-system solver fails on one affine chart (the
oracle returns `none` for that chart, modelling the caught
`NotImplementedError`), the intersection call still returns normally and
the result consists exactly of the other chart's solutions (padded with its
chart value, deduplicated, and with zero tensors dropped). -/
theorem solver_failure_one_chart_nonfatal :
    (∀ (s : ℚ → Option (List (List ℚ))) (xs : List (List ℚ)),
      s 0 = none → s 1 = some xs →
        curveIntersectCore s =
          ((xs.map (fun v => v ++ [1])).dedup).filter
            (fun v => !v.all (fun x => x == 0))) ∧
    (∀ (s : ℚ → Option (List (List ℚ))) (xs : List (List ℚ)),
      s 1 = none → s 0 = some xs →
        curveIntersectCore s =
          ((xs.map (fun v => v ++ [0])).dedup).filter
            (fun v => !v.all (fun x => x == 0))) := by
  constructor <;>
    · intro s xs h0 h1
      rw [curveIntersectCore, chartSols, chartSols, h0, h1]
      simp

/-- Witness for C8: a solver that fails on the chart `z = 0` and returns the
single solution `(0, 1)` on the chart `z = 1`; the call returns the point
`(0, 1, 1)`. -/
theorem solver_failure_one_chart_nonfatal_witness :
    (fun z : ℚ => if z = 0 then none else some [[0, 1]]) 0 = none ∧
    (fun z : ℚ => if z = 0 then none else some [[0, 1]]) 1 = some [[0, 1]] ∧
    curveIntersectCore (fun z : ℚ => if z = 0 then none else some [[0, 1]]) =
      ((([[0, 1]] : List (List ℚ)).map (fun v => v ++ [1])).dedup).filter
        (fun v => !v.all (fun x => x == 0)) :=
  ⟨by norm_num, by norm_num,
    solver_failure_one_chart_nonfatal.1 _ _ (by norm_num) (by norm_num)⟩

end Claim8

/-- The possible operands handed to an `intersect` method: a `Line`, an
`AlgebraicCurve`, a `Quadric`, or some other projective object (a `Point`),
standing for the run-time `isinstance` dispatch of the source. -/
inductive GeomOperand where
  | line (l : V3)
  | curve (f : MvPolynomial (Fin 3) ℝ)
  | quadric (M : M3)
  | point (p : V3)

/-- `AlgebraicCurve.intersect(other)`: dispatches on the operand type; a
`Line` or `AlgebraicCurve` operand enters the two-chart solver loop (the
construction of the polynomial system and its solution are external sympy
calls, modelled by the oracles), and any other operand raises
`NotImplementedError` before any work is done. -/
def curveIntersect (solveLine : V3 → ℚ → Option (List (List ℚ)))
    (solveCurve : MvPolynomial (Fin 3) ℝ → ℚ → Option (List (List ℚ))) :
    GeomOperand → Except String (List (List ℚ))
  | .line l => Except.ok (curveIntersectCore (solveLine l))
  | .curve g => Except.ok (curveIntersectCore (solveCurve g))
  | .quadric _ => Except.error "Intersection for objects of this type not supported."
  | .point _ => Except.error "Intersection for objects of this type not supported."

/-- `Quadric.intersect(quadric)`: decompose the other quadric if it is
degenerate, otherwise pick a root of the pencil discriminant
`det(M + t*M2)` (the numeric root-finding `np.roots` is external, modelled
by `root`) and decompose the degenerate member; intersect with both
component lines, dropping points already present (up-to-scale equality). -/
def quadricIntersectQuadric (M M2 : M3) (root : ℂ) : List V3 :=
  let ef := if M2.det = 0 then componentsPair M2 else componentsPair (M + root • M2)
  let r1 := quadricIntersectLine M ef.1
  r1 ++ (quadricIntersectLine M ef.2).filter
    (fun x => !decide (∃ y ∈ r1, ProjEq y x))

/-- `Quadric.intersect(other)`: two `isinstance` branches — `Line` and
`Quadric` — and, unlike `AlgebraicCurve.intersect`, no trailing `raise`:
an operand of any other type falls through both branches and the method
returns Python `None`, modelled by `none`. -/
def quadricIntersect (M : M3) (root : ℂ) : GeomOperand → Option (List V3)
  | .line l => some (quadricIntersectLine M l)
  | .quadric M2 => some (quadricIntersectQuadric M M2 root)
  | .curve _ => none
  | .point _ => none

section Claim9

/-- C9: `AlgebraicCurve.intersect` with an operand that is neither a `Line`
nor an `AlgebraicCurve` does raise `NotImplementedError`, but
`Quadric.intersect` with an operand that is neither a `Line` nor a
`Quadric` does not raise: it falls through both `isinstance` branches and
returns `None` — a value — contradicting the claim that both raise. -/
theorem intersect_unsupported_operand :
    (∀ (sl : V3 → ℚ → Option (List (List ℚ)))
      (sc : MvPolynomial (Fin 3) ℝ → ℚ → Option (List (List ℚ)))
      (p : V3) (M : M3),
      curveIntersect sl sc (GeomOperand.point p) =
          Except.error "Intersection for objects of this type not supported." ∧
        curveIntersect sl sc (GeomOperand.quadric M) =
          Except.error "Intersection for objects of this type not supported.") ∧
    (∀ (M : M3) (root : ℂ) (p : V3) (f : MvPolynomial (Fin 3) ℝ),
      quadricIntersect M root (GeomOperand.point p) = none ∧
        quadricIntersect M root (GeomOperand.curve f) = none) := by
  exact ⟨fun sl sc p M => ⟨rfl, rfl⟩, fun M root p f => ⟨rfl, rfl⟩⟩

end Claim9

end Geometer
